import Mathlib

/-!
Verification of the rule-document query engine of the `nextjs-rule`
tool handler (src/unnamed/part_000, lines 253-389, mirrored in
src/mcp-server/index.ts lines 408-543).

The JavaScript string operations are embedded as Lean functions over
`String.data` (a `List Char`):
  - `line.startsWith(p)`   becomes `jsStartsWith`
  - `s.includes(sub)`      becomes `jsIncludes`
  - `s.toLowerCase()`      becomes `lowerStr` (ASCII case folding; the
    only case-sensitive data in the claims is ASCII)
  - `s.trim()`             becomes `trimJS`
  - `content.split('\n')`  becomes `splitLines`
  - `arr.join(sep)`        becomes `joinSep`
  - `s.replace(':', '')`   becomes `removeFirstColon` (a string pattern
    in JavaScript `replace` replaces only the first occurrence)
JavaScript truthiness tests `line && ...` on strings become `l != ""`.
-/

namespace RuleDoc

/-- Embeds JavaScript `s.startsWith(pre)`. -/
def jsStartsWith (s pre : String) : Bool :=
  pre.data.isPrefixOf s.data

/-- Contiguous-sublist test on character lists, in the style of
`List.isPrefixOf`: true when `sub` occurs as a contiguous run. -/
def listInfix (sub : List Char) : List Char → Bool
  | [] => sub.isEmpty
  | c :: rest => sub.isPrefixOf (c :: rest) || listInfix sub rest

/-- Embeds JavaScript `s.includes(sub)` (substring containment). -/
def jsIncludes (s sub : String) : Bool :=
  listInfix sub.data s.data

/-- Embeds JavaScript `s.toLowerCase()`. -/
def lowerStr (s : String) : String :=
  ⟨s.data.map Char.toLower⟩

/-- Embeds `line.toLowerCase().includes(term.toLowerCase())`, the
case-insensitive substring match used throughout the handler. -/
def matchesCI (line term : String) : Bool :=
  jsIncludes (lowerStr line) (lowerStr term)

/-- Embeds JavaScript `s.trim()`. -/
def trimJS (s : String) : String :=
  ⟨List.reverse (List.dropWhile Char.isWhitespace
    (List.reverse (List.dropWhile Char.isWhitespace s.data)))⟩

/-- Helper for `splitLines`: splits a character list at every newline,
accumulating the current line in reverse. -/
def splitLinesAux : List Char → List Char → List String
  | [], acc => [⟨acc.reverse⟩]
  | c :: cs, acc =>
    if c = '\n' then ⟨acc.reverse⟩ :: splitLinesAux cs []
    else splitLinesAux cs (c :: acc)

/-- Embeds JavaScript `rulesContent.split('\n')`. -/
def splitLines (s : String) : List String :=
  splitLinesAux s.data []

/-- Embeds JavaScript `arr.join(sep)`. -/
def joinSep (sep : String) : List String → String
  | [] => ""
  | l :: rest => rest.foldl (fun acc x => acc ++ sep ++ x) l

/-- Embeds `line.trim().replace(':', '')`: JavaScript `replace` with a
string pattern removes only the first occurrence. -/
def removeFirstColonAux : List Char → List Char
  | [] => []
  | c :: cs => if c = ':' then cs else c :: removeFirstColonAux cs

/-- Removal of the first `':'` of a string, as done by
`line.trim().replace(':', '')` in the category-listing branch. -/
def removeFirstColon (s : String) : String :=
  ⟨removeFirstColonAux s.data⟩

/-- The section-start (top-level header) test of the handler:
`line && line.startsWith('  ') && !line.startsWith('    ') && line.includes(':')`. -/
def isSectionStart (l : String) : Bool :=
  l != "" && jsStartsWith l "  " && !jsStartsWith l "    " && l.data.contains ':'

/-- The subsection-start (sub-level header) test of the handler:
`line && line.startsWith('    ') && !line.startsWith('      ') && line.includes(':')`. -/
def isSubsectionStart (l : String) : Bool :=
  l != "" && jsStartsWith l "    " && !jsStartsWith l "      " && l.data.contains ':'

/-- Top-level indentation test used by the backward title recovery:
`currentLine && currentLine.startsWith('  ') && !currentLine.startsWith('    ')`
(note: no delimiter check). -/
def hasTopIndent (l : String) : Bool :=
  l != "" && jsStartsWith l "  " && !jsStartsWith l "    "

/-- Sub-level indentation test used by the backward title recovery in
the query branch (again without a delimiter check). -/
def hasSubIndent (l : String) : Bool :=
  l != "" && jsStartsWith l "    " && !jsStartsWith l "      "

/-- The query branch's backward title recovery: the `while (j >= 0 &&
!sectionTitle)` loop walks from the current position toward the start of
the document over the already-seen lines (given here most recent first)
and keeps the trimmed text of the first line at either header
indentation whose trim is non-empty (a trimmed-to-empty line leaves
`sectionTitle` falsy, so the loop continues past it). -/
def recoverQueryTitle : List String → String
  | [] => ""
  | l :: rest =>
    if (hasTopIndent l || hasSubIndent l) && trimJS l != "" then trimJS l
    else recoverQueryTitle rest

/-- The category branch's backward recovery: the `while (j >= 0)` loop
walks from the current position toward the start over the already-seen
lines (most recent first) and breaks at the first line with top-level
indentation, returning that raw line. -/
def recoverCategoryHead : List String → Option String
  | [] => none
  | l :: rest =>
    if hasTopIndent l then some l else recoverCategoryHead rest

/-- The count of leading space characters of a line, the quantity the
specification's classifier is stated in. -/
def leadingSpaces (s : String) : Nat :=
  (s.data.takeWhile (fun c => c == ' ')).length

/-- Loop state of the query branch: `matchingLines`, `inMatchingSection`,
`sectionTitle`, `sectionContent`. -/
structure QueryState where
  matchingLines : List String
  inMatchingSection : Bool
  sectionTitle : String
  sectionContent : List String

/-- The formatted block pushed by the query branch:
`matchingLines.push(s!...)` builds `"## " + title + "\n" + content.join('\n')`. -/
def mkQueryBlock (title : String) (content : List String) : String :=
  "## " ++ title ++ "\n" ++ joinSep "\n" content

/-- Flush of the current query section, as done before each new header
and after the scan: a block is pushed only when `inMatchingSection` is
set and `sectionContent` is non-empty. -/
def queryFlush (st : QueryState) : List String :=
  if st.inMatchingSection && st.sectionContent != [] then
    st.matchingLines ++ [mkQueryBlock st.sectionTitle st.sectionContent]
  else st.matchingLines

/-- One iteration of the query branch's `for` loop on line `l`; `prev`
holds the earlier lines, most recent first, for the backward title
recovery. -/
def queryStep (q : String) (prev : List String) (st : QueryState) (l : String) :
    QueryState :=
  if isSectionStart l then
    { matchingLines := queryFlush st
      inMatchingSection := matchesCI l q
      sectionTitle := trimJS l
      sectionContent := [] }
  else if isSubsectionStart l then
    { matchingLines := queryFlush st
      inMatchingSection := matchesCI l q
      sectionTitle := trimJS l
      sectionContent := [] }
  else if l != "" && (st.inMatchingSection || matchesCI l q) then
    if !st.inMatchingSection && matchesCI l q then
      { st with
        inMatchingSection := true
        sectionTitle :=
          if st.sectionTitle != "" then st.sectionTitle
          else
            let r := recoverQueryTitle (l :: prev)
            if r != "" then r else "関連ルール"
        sectionContent := [l] }
    else
      { st with sectionContent := st.sectionContent ++ [l] }
  else st

/-- The query branch's `for` loop over the remaining lines. -/
def queryGo (q : String) : List String → List String → QueryState → QueryState
  | _, [], st => st
  | prev, l :: rest, st => queryGo q (l :: prev) rest (queryStep q prev st l)

/-- The list `matchingLines` produced by the query branch on a list of
lines (final flush included). -/
def searchQueryLines (ls : List String) (q : String) : List String :=
  queryFlush (queryGo q [] ls ⟨[], false, "", []⟩)

/-- Free-text search: the `matchingLines` of the query branch on a
document. -/
def searchByQuery (doc q : String) : List String :=
  searchQueryLines (splitLines doc) q

/-- Loop state of the category branch: `matchingLines`,
`inMatchingCategory`, `categoryContent`. -/
structure CategoryState where
  matchingLines : List String
  inMatchingCategory : Bool
  categoryContent : List String

/-- Flush of the current category block, as done before each new
top-level header and after the scan: the raw accumulated lines are
joined with no `"## "` framing. -/
def categoryFlush (st : CategoryState) : List String :=
  if st.inMatchingCategory && st.categoryContent != [] then
    st.matchingLines ++ [joinSep "\n" st.categoryContent]
  else st.matchingLines

/-- One iteration of the category branch's `for` loop on line `l`;
`prev` holds the earlier lines, most recent first, for the backward
category recovery. On a top-level header the content restarts as the
raw header line itself; a body-text match with no open category scans
backward for a line with top-level indentation and, when one is found,
restarts the content as that raw line. -/
def categoryStep (c : String) (prev : List String) (st : CategoryState) (l : String) :
    CategoryState :=
  if isSectionStart l then
    { matchingLines := categoryFlush st
      inMatchingCategory := matchesCI l c
      categoryContent := [l] }
  else if l != "" &&
      (st.inMatchingCategory ||
        (jsStartsWith l "    " && !st.inMatchingCategory && matchesCI l c)) then
    if !st.inMatchingCategory && matchesCI l c then
      match recoverCategoryHead (l :: prev) with
      | some h =>
        { st with inMatchingCategory := true, categoryContent := [h, l] }
      | none => { st with categoryContent := st.categoryContent ++ [l] }
    else { st with categoryContent := st.categoryContent ++ [l] }
  else st

/-- The category branch's `for` loop over the remaining lines. -/
def categoryGo (c : String) : List String → List String → CategoryState → CategoryState
  | _, [], st => st
  | prev, l :: rest, st => categoryGo c (l :: prev) rest (categoryStep c prev st l)

/-- The list `matchingLines` produced by the category branch on a list
of lines (final flush included). -/
def searchCategoryLines (ls : List String) (c : String) : List String :=
  categoryFlush (categoryGo c [] ls ⟨[], false, []⟩)

/-- Category-scoped search: the `matchingLines` of the category branch
on a document. -/
def searchByCategory (doc c : String) : List String :=
  searchCategoryLines (splitLines doc) c

/-- The category-listing branch: one pass pushing, for every top-level
header, `line.trim().replace(':', '')`. -/
def listCategoriesLines (ls : List String) : List String :=
  ls.foldl
    (fun acc l =>
      if isSectionStart l then acc ++ [removeFirstColon (trimJS l)] else acc)
    []

/-- Category enumeration over a document. -/
def listCategories (doc : String) : List String :=
  listCategoriesLines (splitLines doc)

/-- The full-content operation of the engine: the document text is used
unmodified (`result` embeds `rulesContent` verbatim). -/
def fullContent (doc : String) : String := doc

/-- The fixed header prepended by the full-content branch. -/
def fullContentHeader : String := "# NextJS開発ルール全文:\n\n"

/-- The full-content branch's response:
`result = '# NextJS開発ルール全文:\n\n' + rulesContent`. -/
def fullContentResponse (doc : String) : String :=
  fullContentHeader ++ fullContent doc

/-- The query branch's final response string: joined blocks under a
header when matches exist, otherwise the fixed not-found sentence. -/
def queryResponse (doc q : String) : String :=
  let ml := searchByQuery doc q
  if ml != [] then
    "# \"" ++ q ++ "\" に関するNextJSルール:\n\n" ++ joinSep "\n\n" ml
  else "\"" ++ q ++ "\" に関する具体的なルールは見つかりませんでした。"

/-- The category branch's final response string. -/
def categoryResponse (doc c : String) : String :=
  let ml := searchByCategory doc c
  if ml != [] then
    "# \"" ++ c ++ "\" カテゴリのNextJSルール:\n\n" ++ joinSep "\n\n" ml
  else "\"" ++ c ++ "\" カテゴリのルールは見つかりませんでした。"

/-- The category-listing branch's final response string, including the
three usage-hint lines. -/
def listingResponse (doc : String) : String :=
  "# NextJSルールの利用可能なカテゴリ:\n\n" ++ joinSep "\n" (listCategories doc) ++
    "\n\n特定のカテゴリのルールを表示するには: nextjs-rule \x7b\"category\": \"カテゴリ名\"\x7d" ++
    "\n特定のキーワードで検索するには: nextjs-rule \x7b\"query\": \"検索ワード\"\x7d" ++
    "\nルールファイルの全文を取得するには: nextjs-rule \x7b\"fullContent\": true\x7d"

/-- The parsed `nextjs-rule` arguments: optional `query` and `category`
strings (from the zod schema) plus whether the raw argument object has a
`fullContent` key (the code tests `Object.keys(arguments).includes('fullContent')`,
key presence only, never the value). -/
structure RuleArgs where
  query : Option String
  category : Option String
  hasFullContentKey : Bool

/-- JavaScript truthiness of an optional string parameter: present and
non-empty. -/
def truthy : Option String → Bool
  | none => false
  | some s => s != ""

/-- The `if (query) ... else if (category) ... else if ('fullContent' in
arguments) ... else ...` dispatch of the handler, producing the single
response string of a call. -/
def nextjsRuleResult (a : RuleArgs) (doc : String) : String :=
  if truthy a.query then queryResponse doc (a.query.getD "")
  else if truthy a.category then categoryResponse doc (a.category.getD "")
  else if a.hasFullContentKey then fullContentResponse doc
  else listingResponse doc

/-- The initial loop state of the query branch. -/
def queryInit : QueryState := ⟨[], false, "", []⟩

/-- A query-branch state inside an open matching region carrying the
fallback title, with no block flushed yet: the state reached when a
content line matches in a document that contains no header-indented
line at all. -/
def fallbackRegion (q : String) (st : QueryState) : Prop :=
  st.matchingLines = [] ∧ st.inMatchingSection = true ∧
  st.sectionTitle = "関連ルール" ∧ st.sectionContent ≠ [] ∧
  ∃ l ∈ st.sectionContent, matchesCI l q = true

/-- A free-text block is sound when it is a `"## "`-framed block whose
title is the trimmed text of a matching document line or whose body
contains a matching document line. -/
def soundQueryBlock (ls : List String) (q b : String) : Prop :=
  ∃ l, l ∈ ls ∧ matchesCI l q = true ∧
    ∃ t content, b = mkQueryBlock t content ∧ (t = trimJS l ∨ l ∈ content)

/-- A category block is sound when it is the raw join of a top-indented
document line followed by further document lines. -/
def soundCategoryBlock (ls : List String) (b : String) : Prop :=
  ∃ h body, hasTopIndent h = true ∧ h ∈ ls ∧ (∀ x ∈ body, x ∈ ls) ∧
    b = joinSep "\n" (h :: body)

/-!
### Sanity checks

The scenario of specification §8, evaluated on the embedding, plus a few
structural probes.
-/

example :
    searchByQuery "  データフェッチ:\n    use client ディレクティブを使う" "use client" =
      ["## データフェッチ:\n    use client ディレクティブを使う"] := by decide

example :
    searchByCategory "  データフェッチ:\n    use client ディレクティブを使う\n  サーバーアクション:\n    \x27use server\x27を使う"
      "サーバー" = ["  サーバーアクション:\n    \x27use server\x27を使う"] := by decide

example :
    listCategories "  データフェッチ:\n    use client ディレクティブを使う\n  サーバーアクション:\n    \x27use server\x27を使う" =
      ["データフェッチ", "サーバーアクション"] := by decide

example : searchByQuery "  データフェッチ:\n    use client ディレクティブを使う" "xyz" = [] := by
  decide

/-!
### General lemmas about the embedded primitives
-/

theorem replicate_space_isPrefixOf (n : Nat) (cs : List Char) :
    (List.replicate n ' ').isPrefixOf cs =
      decide (n ≤ (cs.takeWhile (fun c => c == ' ')).length) := by
  induction n generalizing cs with
  | zero => simp [List.isPrefixOf]
  | succ n ih =>
    cases cs with
    | nil => simp [List.replicate, List.isPrefixOf]
    | cons c rest =>
      by_cases h : c = ' '
      · subst h
        simpa [List.replicate, List.isPrefixOf, List.takeWhile_cons,
          Nat.succ_le_succ_iff] using ih rest
      · simp [List.replicate, List.isPrefixOf, List.takeWhile_cons, h, Ne.symm h]

theorem jsStartsWith_two_spaces (l : String) :
    jsStartsWith l "  " = decide (2 ≤ leadingSpaces l) := by
  have e : "  ".data = List.replicate 2 ' ' := rfl
  rw [jsStartsWith, e, replicate_space_isPrefixOf]; rfl

theorem jsStartsWith_four_spaces (l : String) :
    jsStartsWith l "    " = decide (4 ≤ leadingSpaces l) := by
  have e : "    ".data = List.replicate 4 ' ' := rfl
  rw [jsStartsWith, e, replicate_space_isPrefixOf]; rfl

theorem jsStartsWith_six_spaces (l : String) :
    jsStartsWith l "      " = decide (6 ≤ leadingSpaces l) := by
  have e : "      ".data = List.replicate 6 ' ' := rfl
  rw [jsStartsWith, e, replicate_space_isPrefixOf]; rfl

theorem leadingSpaces_pos_ne_empty (l : String) (h : 1 ≤ leadingSpaces l) :
    l ≠ "" := by
  intro e
  subst e
  exact absurd h (by decide)

/-!
### C2 — line classifier
-/

/-- C2 (amended): the handler's section-start test holds exactly when the
leading-space count is at least 2 and strictly below 4 (so 2 or 3) and the
line contains the delimiter; the subsection-start test holds exactly when
the count is at least 4 and strictly below 6 (so 4 or 5) and the line
contains the delimiter. -/
theorem classifier_characterization (l : String) :
    (isSectionStart l = true ↔
      2 ≤ leadingSpaces l ∧ leadingSpaces l < 4 ∧ l.data.contains ':' = true) ∧
    (isSubsectionStart l = true ↔
      4 ≤ leadingSpaces l ∧ leadingSpaces l < 6 ∧ l.data.contains ':' = true) := by
  constructor
  · unfold isSectionStart
    rw [jsStartsWith_two_spaces, jsStartsWith_four_spaces]
    simp only [Bool.and_eq_true, Bool.not_eq_true', decide_eq_false_iff_not,
      decide_eq_true_eq, bne_iff_ne, ne_eq, not_le]
    constructor
    · rintro ⟨⟨⟨_, h2⟩, h4⟩, hc⟩
      exact ⟨h2, h4, hc⟩
    · rintro ⟨h2, h4, hc⟩
      exact ⟨⟨⟨leadingSpaces_pos_ne_empty l (by omega), h2⟩, h4⟩, hc⟩
  · unfold isSubsectionStart
    rw [jsStartsWith_four_spaces, jsStartsWith_six_spaces]
    simp only [Bool.and_eq_true, Bool.not_eq_true', decide_eq_false_iff_not,
      decide_eq_true_eq, bne_iff_ne, ne_eq, not_le]
    constructor
    · rintro ⟨⟨⟨_, h2⟩, h4⟩, hc⟩
      exact ⟨h2, h4, hc⟩
    · rintro ⟨h2, h4, hc⟩
      exact ⟨⟨⟨leadingSpaces_pos_ne_empty l (by omega), h2⟩, h4⟩, hc⟩

/-- C2 counterexample: a line with exactly three leading spaces and a
delimiter satisfies the section-start test (and a five-space one the
subsection-start test), and such a line opens a titled section in query
mode — it is not treated as plain content. -/
theorem classifier_three_space_cex :
    isSectionStart "   x:" = true ∧ leadingSpaces "   x:" = 3 ∧
    isSubsectionStart "     y:" = true ∧ leadingSpaces "     y:" = 5 ∧
    searchByQuery "   x:\nbody" "x" = ["## x:\nbody"] := by decide

/-- C2 witness: the amended characterization evaluated at a genuine
two-space header. -/
theorem classifier_characterization_witness :
    2 ≤ leadingSpaces "  a:" ∧ leadingSpaces "  a:" < 4 ∧
      "  a:".data.contains ':' = true :=
  (classifier_characterization "  a:").1.mp (by decide)

/-!
### C7 — category listing
-/

theorem listCategoriesLines_eq_aux (ls acc : List String) :
    ls.foldl
        (fun acc l =>
          if isSectionStart l then acc ++ [removeFirstColon (trimJS l)] else acc)
        acc =
      acc ++ (ls.filter isSectionStart).map (fun l => removeFirstColon (trimJS l)) := by
  induction ls generalizing acc with
  | nil => simp
  | cons l rest ih =>
    simp only [List.foldl_cons, List.filter_cons]
    by_cases h : isSectionStart l = true
    · simp only [h, if_true, List.map_cons, ih]
      simp
    · simp only [h, if_false, Bool.false_eq_true, ih]

/-- C7: `listCategories` returns exactly the trimmed titles of the
section-start lines, in document order with duplicates preserved, each
with its first delimiter character removed. -/
theorem listCategories_spec (doc : String) :
    listCategories doc =
      ((splitLines doc).filter isSectionStart).map
        (fun l => removeFirstColon (trimJS l)) := by
  simpa using listCategoriesLines_eq_aux (splitLines doc) []

/-!
### C8 — totality and the empty document
-/

/-- C8: on the empty document every mode returns its empty result — the
two searches return no blocks, the listing returns no categories, and the
full content is the empty text; none of the four operations can fail, as
each is a total function of the document text. -/
theorem empty_document_empty_results :
    (∀ q : String, searchByQuery "" q = []) ∧
    (∀ c : String, searchByCategory "" c = []) ∧
    listCategories "" = [] ∧
    fullContent "" = "" :=
  ⟨fun _ => rfl, fun _ => rfl, rfl, rfl⟩

/-!
### C9 — full content
-/

/-- C9: the full-content mode returns the document text unmodified; the
response is the fixed header followed byte-for-byte by the input text. -/
theorem fullContent_identity (d : String) :
    fullContent d = d ∧
    fullContentResponse d = fullContentHeader ++ d ∧
    (fullContentResponse d).data = fullContentHeader.data ++ d.data :=
  ⟨rfl, rfl, rfl⟩

/-!
### C10 — mode dispatch
-/

/-- C10: the handler's dispatch is mutually exclusive with fixed
precedence — a truthy `query` selects free-text mode regardless of the
other parameters; otherwise a truthy `category` selects category mode;
otherwise the presence of a `fullContent` key selects full-content mode;
otherwise the category listing runs. Exactly one mode's response is
produced per call. -/
theorem mode_dispatch (a : RuleArgs) (d : String) :
    (truthy a.query = true →
      nextjsRuleResult a d = queryResponse d (a.query.getD "")) ∧
    (truthy a.query = false → truthy a.category = true →
      nextjsRuleResult a d = categoryResponse d (a.category.getD "")) ∧
    (truthy a.query = false → truthy a.category = false →
      a.hasFullContentKey = true →
      nextjsRuleResult a d = fullContentResponse d) ∧
    (truthy a.query = false → truthy a.category = false →
      a.hasFullContentKey = false →
      nextjsRuleResult a d = listingResponse d) := by
  refine ⟨fun h1 => ?_, fun h1 h2 => ?_, fun h1 h2 h3 => ?_, fun h1 h2 h3 => ?_⟩ <;>
    simp [nextjsRuleResult, *]

/-- C10 witness: with all three parameters supplied, the query mode wins. -/
theorem mode_dispatch_witness :
    nextjsRuleResult ⟨some "a", some "b", true⟩ "" = queryResponse "" "a" :=
  (mode_dispatch ⟨some "a", some "b", true⟩ "").1 (by decide)

/-!
### Counterexamples: C1, C3, C4, C5
-/

/-- C1 counterexample: a document consisting of a single header whose
title contains the term yields no block at all, because a block is
flushed only when the accumulated body is non-empty. -/
theorem query_empty_body_cex :
    matchesCI "  abc:" "abc" = true ∧ searchByQuery "  abc:" "abc" = [] := by decide

/-- C3 counterexample: a blank line between content lines of an open
matching section is dropped from the emitted body in both modes, not
preserved. -/
theorem blank_line_dropped_cex :
    searchByQuery "  t:\na\n\nb" "t" = ["## t:\na\nb"] ∧
    searchByQuery "  t:\na\n\nb" "t" ≠ ["## t:\na\n\nb"] ∧
    searchByCategory "  t:\na\n\nb" "t" = ["  t:\na\nb"] := by decide

/-- C4 counterexample: a matching content line preceded by no header
(the earlier line has top-level indentation but no delimiter, so it is
not a header) is titled with that line's trimmed text, not with the
fallback title 関連ルール. -/
theorem fallback_title_not_used_cex :
    isSectionStart "  foo" = false ∧ isSubsectionStart "  foo" = false ∧
    matchesCI " term" "term" = true ∧
    searchByQuery "  foo\n term" "term" = ["## foo\n term"] ∧
    searchByQuery "  foo\n term" "term" ≠ ["## 関連ルール\n term"] := by decide

/-- C5 counterexample: a body-text match whose backward scan hits a line
with top-level indentation but no delimiter — so no header exists before
the match — still contributes a block in category mode. -/
theorem category_no_header_block_cex :
    isSectionStart "  notheader" = false ∧ isSubsectionStart "  notheader" = false ∧
    searchByCategory "  notheader\n    term" "term" = ["  notheader\n    term"] ∧
    searchByCategory "  notheader\n    term" "term" ≠ [] := by decide

/-!
### C5 — category mode needs a top-indented line before a body match
-/

theorem isSectionStart_hasTopIndent {l : String} (h : isSectionStart l = true) :
    hasTopIndent l = true := by
  unfold isSectionStart at h
  unfold hasTopIndent
  simp only [Bool.and_eq_true] at h ⊢
  exact h.1

theorem recoverCategoryHead_none (prev : List String)
    (h : ∀ l ∈ prev, hasTopIndent l = false) :
    recoverCategoryHead prev = none := by
  induction prev with
  | nil => rfl
  | cons l rest ih =>
    unfold recoverCategoryHead
    simp only [h l (List.mem_cons_self l rest), Bool.false_eq_true, if_false]
    exact ih fun x hx => h x (List.mem_cons_of_mem l hx)

theorem categoryStep_no_top (c : String) (prev : List String) (st : CategoryState)
    (l : String) (hl : hasTopIndent l = false)
    (hprev : ∀ x ∈ prev, hasTopIndent x = false)
    (hm : st.inMatchingCategory = false) :
    (categoryStep c prev st l).inMatchingCategory = false ∧
    (categoryStep c prev st l).matchingLines = st.matchingLines := by
  have hs : isSectionStart l = false := by
    cases hss : isSectionStart l
    · rfl
    · exact absurd (isSectionStart_hasTopIndent hss) (by simp [hl])
  have hrec : recoverCategoryHead (l :: prev) = none := by
    apply recoverCategoryHead_none
    intro x hx
    rcases List.mem_cons.mp hx with h1 | h2
    · exact h1 ▸ hl
    · exact hprev x h2
  unfold categoryStep
  simp only [hs, Bool.false_eq_true, if_false, hm, hrec]
  split
  · split
    · exact ⟨rfl, rfl⟩
    · exact ⟨rfl, rfl⟩
  · exact ⟨hm, rfl⟩

theorem categoryGo_no_top (c : String) :
    ∀ (rem prev : List String) (st : CategoryState),
      (∀ l ∈ rem, hasTopIndent l = false) →
      (∀ l ∈ prev, hasTopIndent l = false) →
      st.inMatchingCategory = false →
      (categoryGo c prev rem st).inMatchingCategory = false ∧
      (categoryGo c prev rem st).matchingLines = st.matchingLines
  | [], _, _, _, _, hm => ⟨hm, rfl⟩
  | l :: rest, prev, st, hrem, hprev, hm => by
    simp only [categoryGo]
    have hstep := categoryStep_no_top c prev st l
      (hrem l (List.mem_cons_self l rest)) hprev hm
    have ih := categoryGo_no_top c rest (l :: prev) (categoryStep c prev st l)
      (fun x hx => hrem x (List.mem_cons_of_mem l hx))
      (fun x hx => by
        rcases List.mem_cons.mp hx with h1 | h2
        · exact h1 ▸ hrem l (List.mem_cons_self l rest)
        · exact hprev x h2)
      hstep.1
    exact ⟨ih.1, ih.2.trans hstep.2⟩

/-- C5 (amended): the category-mode backward scan accepts any line with
top-level indentation, delimiter or not; so in a document containing no
top-indented line at all, no body-text match ever opens a category and
`searchByCategory` returns no blocks. -/
theorem category_match_needs_top_indent (doc c : String)
    (h : ∀ l ∈ splitLines doc, hasTopIndent l = false) :
    searchByCategory doc c = [] := by
  unfold searchByCategory searchCategoryLines categoryFlush
  have hg := categoryGo_no_top c (splitLines doc) [] ⟨[], false, []⟩ h
    (by intro x hx; cases hx) rfl
  rw [hg.1]
  simp only [Bool.false_and, Bool.false_eq_true, if_false]
  exact hg.2

/-- C5 witness: a document whose only line is sub-indented and matches
the category term produces no category block. -/
theorem category_match_needs_top_indent_witness :
    searchByCategory "    term" "term" = [] :=
  category_match_needs_top_indent "    term" "term" (by decide)

/-!
### C3 — blank lines are ignored entirely

The loop bodies test `line &&` before every branch, so an empty line
changes neither the state nor the already-seen context relevant to the
backward recoveries; removing all blank lines yields the same output.
-/

theorem recoverQueryTitle_blank (rest : List String) :
    recoverQueryTitle ("" :: rest) = recoverQueryTitle rest := rfl

theorem recoverCategoryHead_blank (rest : List String) :
    recoverCategoryHead ("" :: rest) = recoverCategoryHead rest := rfl

theorem recoverQueryTitle_cons_congr (l : String) {prev prev' : List String}
    (h : recoverQueryTitle prev = recoverQueryTitle prev') :
    recoverQueryTitle (l :: prev) = recoverQueryTitle (l :: prev') := by
  unfold recoverQueryTitle
  split
  · rfl
  · exact h

theorem recoverCategoryHead_cons_congr (l : String) {prev prev' : List String}
    (h : recoverCategoryHead prev = recoverCategoryHead prev') :
    recoverCategoryHead (l :: prev) = recoverCategoryHead (l :: prev') := by
  unfold recoverCategoryHead
  split
  · rfl
  · exact h

theorem queryStep_congr (q : String) {prev prev' : List String}
    (st : QueryState) (l : String)
    (h : recoverQueryTitle prev = recoverQueryTitle prev') :
    queryStep q prev st l = queryStep q prev' st l := by
  unfold queryStep
  simp only [recoverQueryTitle_cons_congr l h]

theorem categoryStep_congr (c : String) {prev prev' : List String}
    (st : CategoryState) (l : String)
    (h : recoverCategoryHead prev = recoverCategoryHead prev') :
    categoryStep c prev st l = categoryStep c prev' st l := by
  unfold categoryStep
  simp only [recoverCategoryHead_cons_congr l h]

theorem queryGo_congr (q : String) :
    ∀ (rem prev prev' : List String) (st : QueryState),
      recoverQueryTitle prev = recoverQueryTitle prev' →
      queryGo q prev rem st = queryGo q prev' rem st
  | [], _, _, _, _ => rfl
  | l :: rest, prev, prev', st, h => by
    simp only [queryGo]
    rw [queryStep_congr q st l h]
    exact queryGo_congr q rest (l :: prev) (l :: prev') _
      (recoverQueryTitle_cons_congr l h)

theorem categoryGo_congr (c : String) :
    ∀ (rem prev prev' : List String) (st : CategoryState),
      recoverCategoryHead prev = recoverCategoryHead prev' →
      categoryGo c prev rem st = categoryGo c prev' rem st
  | [], _, _, _, _ => rfl
  | l :: rest, prev, prev', st, h => by
    simp only [categoryGo]
    rw [categoryStep_congr c st l h]
    exact categoryGo_congr c rest (l :: prev) (l :: prev') _
      (recoverCategoryHead_cons_congr l h)

theorem queryGo_filter_blank (q : String) :
    ∀ (rem prev : List String) (st : QueryState),
      queryGo q prev (rem.filter (fun l => l != "")) st = queryGo q prev rem st
  | [], _, _ => rfl
  | l :: rest, prev, st => by
    by_cases h : l = ""
    · subst h
      have e : (("" :: rest).filter (fun l => l != "")) =
          rest.filter (fun l => l != "") := by simp
      rw [e, queryGo_filter_blank q rest prev st]
      have e2 : queryGo q prev ("" :: rest) st = queryGo q ("" :: prev) rest st := by
        simp only [queryGo]
        rfl
      rw [e2]
      exact queryGo_congr q rest prev ("" :: prev) st
        (recoverQueryTitle_blank prev).symm
    · have e : ((l :: rest).filter (fun l => l != "")) =
          l :: rest.filter (fun l => l != "") := by simp [h]
      rw [e]
      simp only [queryGo]
      exact queryGo_filter_blank q rest (l :: prev) _

theorem categoryGo_filter_blank (c : String) :
    ∀ (rem prev : List String) (st : CategoryState),
      categoryGo c prev (rem.filter (fun l => l != "")) st = categoryGo c prev rem st
  | [], _, _ => rfl
  | l :: rest, prev, st => by
    by_cases h : l = ""
    · subst h
      have e : (("" :: rest).filter (fun l => l != "")) =
          rest.filter (fun l => l != "") := by simp
      rw [e, categoryGo_filter_blank c rest prev st]
      have e2 : categoryGo c prev ("" :: rest) st = categoryGo c ("" :: prev) rest st := by
        simp only [categoryGo]
        rfl
      rw [e2]
      exact categoryGo_congr c rest prev ("" :: prev) st
        (recoverCategoryHead_blank prev).symm
    · have e : ((l :: rest).filter (fun l => l != "")) =
          l :: rest.filter (fun l => l != "") := by simp [h]
      rw [e]
      simp only [categoryGo]
      exact categoryGo_filter_blank c rest (l :: prev) _

/-!
### Case equations for the two step functions
-/

theorem queryStep_header (q : String) (prev : List String) (st : QueryState)
    (l : String) (hs : isSectionStart l = true) :
    queryStep q prev st l = ⟨queryFlush st, matchesCI l q, trimJS l, []⟩ := by
  unfold queryStep
  simp [hs]

theorem queryStep_subheader (q : String) (prev : List String) (st : QueryState)
    (l : String) (hs : isSectionStart l = false) (hss : isSubsectionStart l = true) :
    queryStep q prev st l = ⟨queryFlush st, matchesCI l q, trimJS l, []⟩ := by
  unfold queryStep
  simp [hs, hss]

theorem queryStep_blank (q : String) (prev : List String) (st : QueryState) :
    queryStep q prev st "" = st := rfl

theorem queryStep_nonmatch (q : String) (prev : List String) (st : QueryState)
    (l : String) (hs : isSectionStart l = false) (hss : isSubsectionStart l = false)
    (hm : st.inMatchingSection = false) (hq : matchesCI l q = false) :
    queryStep q prev st l = st := by
  unfold queryStep
  simp [hs, hss, hm, hq]

theorem queryStep_trigger (q : String) (prev : List String) (st : QueryState)
    (l : String) (hs : isSectionStart l = false) (hss : isSubsectionStart l = false)
    (hm : st.inMatchingSection = false) (hl : l ≠ "") (hq : matchesCI l q = true) :
    queryStep q prev st l =
      { st with
        inMatchingSection := true
        sectionTitle :=
          if st.sectionTitle != "" then st.sectionTitle
          else
            let r := recoverQueryTitle (l :: prev)
            if r != "" then r else "関連ルール"
        sectionContent := [l] } := by
  unfold queryStep
  simp [hs, hss, hm, hl, hq]

theorem queryStep_absorb (q : String) (prev : List String) (st : QueryState)
    (l : String) (hs : isSectionStart l = false) (hss : isSubsectionStart l = false)
    (hm : st.inMatchingSection = true) (hl : l ≠ "") :
    queryStep q prev st l = { st with sectionContent := st.sectionContent ++ [l] } := by
  unfold queryStep
  simp [hs, hss, hm, hl]

theorem categoryStep_header (c : String) (prev : List String) (st : CategoryState)
    (l : String) (hs : isSectionStart l = true) :
    categoryStep c prev st l = ⟨categoryFlush st, matchesCI l c, [l]⟩ := by
  unfold categoryStep
  simp [hs]

theorem categoryStep_blank (c : String) (prev : List String) (st : CategoryState) :
    categoryStep c prev st "" = st := rfl

theorem categoryStep_absorb (c : String) (prev : List String) (st : CategoryState)
    (l : String) (hs : isSectionStart l = false)
    (hm : st.inMatchingCategory = true) (hl : l ≠ "") :
    categoryStep c prev st l = { st with categoryContent := st.categoryContent ++ [l] } := by
  unfold categoryStep
  simp [hs, hm, hl]

theorem categoryStep_idle (c : String) (prev : List String) (st : CategoryState)
    (l : String) (hs : isSectionStart l = false)
    (hm : st.inMatchingCategory = false)
    (hq : jsStartsWith l "    " = false ∨ matchesCI l c = false) :
    categoryStep c prev st l = st := by
  unfold categoryStep
  rcases hq with hq | hq
  · simp [hs, hm, hq]
  · simp [hs, hm, hq]

theorem categoryStep_trigger_found (c : String) (prev : List String)
    (st : CategoryState) (l h : String) (hs : isSectionStart l = false)
    (hm : st.inMatchingCategory = false) (hl : l ≠ "")
    (hsw : jsStartsWith l "    " = true) (hq : matchesCI l c = true)
    (hrec : recoverCategoryHead (l :: prev) = some h) :
    categoryStep c prev st l =
      { st with inMatchingCategory := true, categoryContent := [h, l] } := by
  unfold categoryStep
  simp [hs, hm, hl, hsw, hq, hrec]

theorem categoryStep_trigger_lost (c : String) (prev : List String)
    (st : CategoryState) (l : String) (hs : isSectionStart l = false)
    (hm : st.inMatchingCategory = false) (hl : l ≠ "")
    (hsw : jsStartsWith l "    " = true) (hq : matchesCI l c = true)
    (hrec : recoverCategoryHead (l :: prev) = none) :
    categoryStep c prev st l =
      { st with categoryContent := st.categoryContent ++ [l] } := by
  unfold categoryStep
  simp [hs, hm, hl, hsw, hq, hrec]

/-- C3 (amended): blank lines are ignored entirely — they neither affect
the recovered structure nor appear in any emitted body: removing every
blank line from the document leaves the output of both the free-text and
the category search unchanged. -/
theorem blank_lines_ignored (doc q c : String) :
    searchQueryLines ((splitLines doc).filter (fun l => l != "")) q =
      searchByQuery doc q ∧
    searchCategoryLines ((splitLines doc).filter (fun l => l != "")) c =
      searchByCategory doc c := by
  constructor
  · unfold searchByQuery searchQueryLines
    rw [queryGo_filter_blank]
  · unfold searchByCategory searchCategoryLines
    rw [categoryGo_filter_blank]

/-!
### C4 — fallback title in a document without header-indented lines
-/

theorem isSubsectionStart_hasSubIndent {l : String} (h : isSubsectionStart l = true) :
    hasSubIndent l = true := by
  unfold isSubsectionStart at h
  unfold hasSubIndent
  simp only [Bool.and_eq_true] at h ⊢
  exact h.1

theorem recoverQueryTitle_empty (prev : List String)
    (h : ∀ l ∈ prev, hasTopIndent l = false ∧ hasSubIndent l = false) :
    recoverQueryTitle prev = "" := by
  induction prev with
  | nil => rfl
  | cons l rest ih =>
    have hl := h l (List.mem_cons_self l rest)
    unfold recoverQueryTitle
    simp only [hl.1, hl.2, Bool.or_self, Bool.false_and, Bool.false_eq_true, if_false]
    exact ih fun x hx => h x (List.mem_cons_of_mem l hx)

theorem queryGo_fallback (q : String) :
    ∀ (rem prev : List String) (st : QueryState),
      (∀ l ∈ rem, hasTopIndent l = false ∧ hasSubIndent l = false) →
      (∀ l ∈ prev, hasTopIndent l = false ∧ hasSubIndent l = false) →
      (st = queryInit ∨ fallbackRegion q st) →
      ((queryGo q prev rem st = queryInit ∨
          fallbackRegion q (queryGo q prev rem st)) ∧
        (((∃ l ∈ rem, l ≠ "" ∧ matchesCI l q = true) ∨ fallbackRegion q st) →
          fallbackRegion q (queryGo q prev rem st)))
  | [], prev, st, _, _, hinv => by
    refine ⟨hinv, fun h => ?_⟩
    rcases h with ⟨l, hl, _⟩ | h2
    · exact absurd hl (List.not_mem_nil l)
    · exact h2
  | l :: rest, prev, st, hrem, hprev, hinv => by
    have hl := hrem l (List.mem_cons_self l rest)
    have hs : isSectionStart l = false := by
      cases hx : isSectionStart l
      · rfl
      · exact absurd (isSectionStart_hasTopIndent hx) (by simp [hl.1])
    have hss : isSubsectionStart l = false := by
      cases hx : isSubsectionStart l
      · rfl
      · exact absurd (isSubsectionStart_hasSubIndent hx) (by simp [hl.2])
    have hprev' : ∀ x ∈ l :: prev, hasTopIndent x = false ∧ hasSubIndent x = false := by
      intro x hx
      rcases List.mem_cons.mp hx with h1 | h2
      · exact h1 ▸ hl
      · exact hprev x h2
    have hrem' : ∀ x ∈ rest, hasTopIndent x = false ∧ hasSubIndent x = false :=
      fun x hx => hrem x (List.mem_cons_of_mem l hx)
    have hstep : (queryStep q prev st l = queryInit ∨
        fallbackRegion q (queryStep q prev st l)) ∧
        (((l ≠ "" ∧ matchesCI l q = true) ∨ fallbackRegion q st) →
          fallbackRegion q (queryStep q prev st l)) := by
      rcases hinv with hi | hf
      · subst hi
        by_cases hbl : l = ""
        · subst hbl
          rw [queryStep_blank]
          refine ⟨Or.inl rfl, fun h => ?_⟩
          rcases h with ⟨h1, _⟩ | h2
          · exact absurd rfl h1
          · exact h2
        · cases hq : matchesCI l q with
          | true =>
            rw [queryStep_trigger q prev queryInit l hs hss rfl hbl hq]
            have htitle : recoverQueryTitle (l :: prev) = "" :=
              recoverQueryTitle_empty _ hprev'
            have hfr : fallbackRegion q
                { queryInit with
                  inMatchingSection := true
                  sectionTitle :=
                    if queryInit.sectionTitle != "" then queryInit.sectionTitle
                    else
                      let r := recoverQueryTitle (l :: prev)
                      if r != "" then r else "関連ルール"
                  sectionContent := [l] } := by
              refine ⟨rfl, rfl, ?_, by simp, ⟨l, by simp, hq⟩⟩
              simp [queryInit, htitle]
            exact ⟨Or.inr hfr, fun _ => hfr⟩
          | false =>
            rw [queryStep_nonmatch q prev queryInit l hs hss rfl hq]
            refine ⟨Or.inl rfl, fun h => ?_⟩
            rcases h with ⟨_, h2⟩ | h2
            · exact absurd h2 (by simp [hq])
            · exact h2
      · by_cases hbl : l = ""
        · subst hbl
          rw [queryStep_blank]
          exact ⟨Or.inr hf, fun _ => hf⟩
        · rw [queryStep_absorb q prev st l hs hss hf.2.1 hbl]
          have hf' : fallbackRegion q
              { st with sectionContent := st.sectionContent ++ [l] } := by
            obtain ⟨h1, h2, h3, _, lw, hlw, hlq⟩ := hf
            exact ⟨h1, h2, h3, by simp, ⟨lw, List.mem_append_left _ hlw, hlq⟩⟩
          exact ⟨Or.inr hf', fun _ => hf'⟩
    have ih := queryGo_fallback q rest (l :: prev) (queryStep q prev st l)
      hrem' hprev' hstep.1
    constructor
    · simpa only [queryGo] using ih.1
    · intro h
      have hres : fallbackRegion q
          (queryGo q (l :: prev) rest (queryStep q prev st l)) := by
        rcases h with ⟨x, hx, hxe, hxq⟩ | h2
        · rcases List.mem_cons.mp hx with h1 | h1
          · exact ih.2 (Or.inr (hstep.2 (Or.inl ⟨h1 ▸ hxe, h1 ▸ hxq⟩)))
          · exact ih.2 (Or.inl ⟨x, h1, hxe, hxq⟩)
        · exact ih.2 (Or.inr (hstep.2 (Or.inr h2)))
      simpa only [queryGo] using hres

/-- C4 (amended): the query-mode backward title recovery accepts the
nearest prior line with header indentation at either depth, delimiter
not required; so in a document containing no header-indented line at
all, a matching non-blank content line opens a region with the fallback
title 関連ルール, and the whole output is that single fallback-titled
block, whose body contains a line matching the term. -/
theorem query_fallback_title (doc q : String)
    (hnd : ∀ l ∈ splitLines doc, hasTopIndent l = false ∧ hasSubIndent l = false)
    (hm : ∃ l ∈ splitLines doc, l ≠ "" ∧ matchesCI l q = true) :
    ∃ content, searchByQuery doc q = [mkQueryBlock "関連ルール" content] ∧
      content ≠ [] ∧ ∃ l ∈ content, matchesCI l q = true := by
  have hg := queryGo_fallback q (splitLines doc) [] queryInit hnd
    (by intro x hx; cases hx) (Or.inl rfl)
  obtain ⟨h1, h2, h3, h4, lw, hlw, hlq⟩ := hg.2 (Or.inl hm)
  refine ⟨(queryGo q [] (splitLines doc) queryInit).sectionContent, ?_, h4,
    ⟨lw, hlw, hlq⟩⟩
  unfold searchByQuery searchQueryLines queryFlush
  rw [show (⟨[], false, "", []⟩ : QueryState) = queryInit from rfl]
  have hcond : ((queryGo q [] (splitLines doc) queryInit).inMatchingSection &&
      (queryGo q [] (splitLines doc) queryInit).sectionContent != []) = true := by
    rw [h2]
    simp [h4]
  simp only [hcond, if_true, h1, h3]
  simp

/-- C4 witness: a one-line document with no indentation and a matching
line yields the single fallback-titled block. -/
theorem query_fallback_title_witness :
    ∃ content, searchByQuery "hello term" "term" =
        [mkQueryBlock "関連ルール" content] ∧
      content ≠ [] ∧ ∃ l ∈ content, matchesCI l "term" = true :=
  query_fallback_title "hello term" "term" (by decide) (by decide)

/-!
### Query-branch soundness: every block comes from a matching line
-/

theorem queryFlush_sound {ls : List String} {q : String} {st : QueryState}
    (hres : ∀ b ∈ st.matchingLines, soundQueryBlock ls q b)
    (hreg : st.inMatchingSection = true →
      ∃ l, l ∈ ls ∧ matchesCI l q = true ∧
        (st.sectionTitle = trimJS l ∨ l ∈ st.sectionContent)) :
    ∀ b ∈ queryFlush st, soundQueryBlock ls q b := by
  intro b hb
  unfold queryFlush at hb
  by_cases hcond : (st.inMatchingSection && st.sectionContent != []) = true
  · rw [if_pos hcond] at hb
    rcases List.mem_append.mp hb with h1 | h2
    · exact hres b h1
    · have hm : st.inMatchingSection = true := by
        simp only [Bool.and_eq_true] at hcond
        exact hcond.1
      obtain ⟨l, hls, hlq, hd⟩ := hreg hm
      have hbe : b = mkQueryBlock st.sectionTitle st.sectionContent := by
        simpa using h2
      exact ⟨l, hls, hlq, st.sectionTitle, st.sectionContent, hbe, hd⟩
  · rw [if_neg hcond] at hb
    exact hres b hb

theorem queryGo_sound (ls : List String) (q : String) :
    ∀ (rem prev : List String) (st : QueryState),
      (∀ x ∈ rem, x ∈ ls) →
      (∀ b ∈ st.matchingLines, soundQueryBlock ls q b) →
      (st.inMatchingSection = true →
        ∃ l, l ∈ ls ∧ matchesCI l q = true ∧
          (st.sectionTitle = trimJS l ∨ l ∈ st.sectionContent)) →
      (∀ b ∈ (queryGo q prev rem st).matchingLines, soundQueryBlock ls q b) ∧
      ((queryGo q prev rem st).inMatchingSection = true →
        ∃ l, l ∈ ls ∧ matchesCI l q = true ∧
          ((queryGo q prev rem st).sectionTitle = trimJS l ∨
            l ∈ (queryGo q prev rem st).sectionContent))
  | [], _, _, _, hres, hreg => ⟨hres, hreg⟩
  | l :: rest, prev, st, hrem, hres, hreg => by
    have hlin : l ∈ ls := hrem l (List.mem_cons_self l rest)
    have hrem' : ∀ x ∈ rest, x ∈ ls := fun x hx => hrem x (List.mem_cons_of_mem l hx)
    have hstep :
        (∀ b ∈ (queryStep q prev st l).matchingLines, soundQueryBlock ls q b) ∧
        ((queryStep q prev st l).inMatchingSection = true →
          ∃ l₀, l₀ ∈ ls ∧ matchesCI l₀ q = true ∧
            ((queryStep q prev st l).sectionTitle = trimJS l₀ ∨
              l₀ ∈ (queryStep q prev st l).sectionContent)) := by
      cases hs : isSectionStart l with
      | true =>
        rw [queryStep_header q prev st l hs]
        refine ⟨queryFlush_sound hres hreg, fun hm => ?_⟩
        have hq : matchesCI l q = true := hm
        exact ⟨l, hlin, hq, Or.inl rfl⟩
      | false =>
        cases hss : isSubsectionStart l with
        | true =>
          rw [queryStep_subheader q prev st l hs hss]
          refine ⟨queryFlush_sound hres hreg, fun hm => ?_⟩
          have hq : matchesCI l q = true := hm
          exact ⟨l, hlin, hq, Or.inl rfl⟩
        | false =>
          by_cases hbl : l = ""
          · subst hbl
            rw [queryStep_blank]
            exact ⟨hres, hreg⟩
          · cases hm : st.inMatchingSection with
            | true =>
              rw [queryStep_absorb q prev st l hs hss hm hbl]
              refine ⟨hres, fun _ => ?_⟩
              obtain ⟨l₀, hls, hlq, hd⟩ := hreg hm
              refine ⟨l₀, hls, hlq, ?_⟩
              rcases hd with hd | hd
              · exact Or.inl hd
              · exact Or.inr (List.mem_append_left _ hd)
            | false =>
              cases hq : matchesCI l q with
              | false =>
                rw [queryStep_nonmatch q prev st l hs hss hm hq]
                exact ⟨hres, hreg⟩
              | true =>
                rw [queryStep_trigger q prev st l hs hss hm hbl hq]
                refine ⟨hres, fun _ => ?_⟩
                exact ⟨l, hlin, hq, Or.inr (List.mem_singleton.mpr rfl)⟩
    have ih := queryGo_sound ls q rest (l :: prev) (queryStep q prev st l)
      hrem' hstep.1 hstep.2
    simpa only [queryGo] using ih

theorem searchQueryLines_sound (ls : List String) (q : String) :
    ∀ b ∈ searchQueryLines ls q, soundQueryBlock ls q b := by
  have hg := queryGo_sound ls q ls [] ⟨[], false, "", []⟩ (fun x hx => hx)
    (by intro b hb; cases hb) (by intro h; cases h)
  exact queryFlush_sound hg.1 hg.2

/-!
### C6 — category blocks are raw and header-first, query blocks framed
-/

theorem recoverCategoryHead_some {prev : List String} {h : String}
    (hr : recoverCategoryHead prev = some h) :
    h ∈ prev ∧ hasTopIndent h = true := by
  induction prev with
  | nil => cases hr
  | cons l rest ih =>
    unfold recoverCategoryHead at hr
    by_cases hl : hasTopIndent l = true
    · rw [if_pos hl] at hr
      injection hr with hr2
      subst hr2
      exact ⟨List.mem_cons_self l rest, hl⟩
    · rw [if_neg hl] at hr
      obtain ⟨h1, h2⟩ := ih hr
      exact ⟨List.mem_cons_of_mem l h1, h2⟩

theorem categoryFlush_sound {ls : List String} {st : CategoryState}
    (hres : ∀ b ∈ st.matchingLines, soundCategoryBlock ls b)
    (hreg : st.inMatchingCategory = true →
      ∃ h body, st.categoryContent = h :: body ∧ hasTopIndent h = true ∧
        h ∈ ls ∧ ∀ x ∈ body, x ∈ ls) :
    ∀ b ∈ categoryFlush st, soundCategoryBlock ls b := by
  intro b hb
  unfold categoryFlush at hb
  by_cases hcond : (st.inMatchingCategory && st.categoryContent != []) = true
  · rw [if_pos hcond] at hb
    rcases List.mem_append.mp hb with h1 | h2
    · exact hres b h1
    · have hm : st.inMatchingCategory = true := by
        simp only [Bool.and_eq_true] at hcond
        exact hcond.1
      obtain ⟨h, body, he, ht, hin, hbody⟩ := hreg hm
      have hbe : b = joinSep "\n" st.categoryContent := by simpa using h2
      exact ⟨h, body, ht, hin, hbody, by rw [hbe, he]⟩
  · rw [if_neg hcond] at hb
    exact hres b hb

theorem categoryGo_sound (ls : List String) (c : String) :
    ∀ (rem prev : List String) (st : CategoryState),
      (∀ x ∈ rem, x ∈ ls) → (∀ x ∈ prev, x ∈ ls) →
      (∀ b ∈ st.matchingLines, soundCategoryBlock ls b) →
      (st.inMatchingCategory = true →
        ∃ h body, st.categoryContent = h :: body ∧ hasTopIndent h = true ∧
          h ∈ ls ∧ ∀ x ∈ body, x ∈ ls) →
      (∀ b ∈ (categoryGo c prev rem st).matchingLines, soundCategoryBlock ls b) ∧
      ((categoryGo c prev rem st).inMatchingCategory = true →
        ∃ h body, (categoryGo c prev rem st).categoryContent = h :: body ∧
          hasTopIndent h = true ∧ h ∈ ls ∧ ∀ x ∈ body, x ∈ ls)
  | [], _, _, _, _, hres, hreg => ⟨hres, hreg⟩
  | l :: rest, prev, st, hrem, hprev, hres, hreg => by
    have hlin : l ∈ ls := hrem l (List.mem_cons_self l rest)
    have hrem' : ∀ x ∈ rest, x ∈ ls := fun x hx => hrem x (List.mem_cons_of_mem l hx)
    have hprev' : ∀ x ∈ l :: prev, x ∈ ls := by
      intro x hx
      rcases List.mem_cons.mp hx with h1 | h2
      · exact h1 ▸ hlin
      · exact hprev x h2
    have hstep :
        (∀ b ∈ (categoryStep c prev st l).matchingLines, soundCategoryBlock ls b) ∧
        ((categoryStep c prev st l).inMatchingCategory = true →
          ∃ h body, (categoryStep c prev st l).categoryContent = h :: body ∧
            hasTopIndent h = true ∧ h ∈ ls ∧ ∀ x ∈ body, x ∈ ls) := by
      cases hs : isSectionStart l with
      | true =>
        rw [categoryStep_header c prev st l hs]
        refine ⟨categoryFlush_sound hres hreg, fun _ => ?_⟩
        exact ⟨l, [], rfl, isSectionStart_hasTopIndent hs, hlin,
          by intro x hx; cases hx⟩
      | false =>
        by_cases hbl : l = ""
        · subst hbl
          rw [categoryStep_blank]
          exact ⟨hres, hreg⟩
        · cases hm : st.inMatchingCategory with
          | true =>
            rw [categoryStep_absorb c prev st l hs hm hbl]
            refine ⟨hres, fun _ => ?_⟩
            obtain ⟨h, body, he, ht, hin, hbody⟩ := hreg hm
            refine ⟨h, body ++ [l], by simp [he], ht, hin, ?_⟩
            intro x hx
            rcases List.mem_append.mp hx with h1 | h1
            · exact hbody x h1
            · have hxl : x = l := by simpa using h1
              exact hxl ▸ hlin
          | false =>
            cases hsw : jsStartsWith l "    " with
            | false =>
              rw [categoryStep_idle c prev st l hs hm (Or.inl hsw)]
              exact ⟨hres, hreg⟩
            | true =>
              cases hq : matchesCI l c with
              | false =>
                rw [categoryStep_idle c prev st l hs hm (Or.inr hq)]
                exact ⟨hres, hreg⟩
              | true =>
                cases hrec : recoverCategoryHead (l :: prev) with
                | none =>
                  rw [categoryStep_trigger_lost c prev st l hs hm hbl hsw hq hrec]
                  refine ⟨hres, fun hcontra => ?_⟩
                  have hmm : st.inMatchingCategory = true := hcontra
                  rw [hm] at hmm
                  cases hmm
                | some h =>
                  rw [categoryStep_trigger_found c prev st l h hs hm hbl hsw hq hrec]
                  refine ⟨hres, fun _ => ?_⟩
                  obtain ⟨hmem, htop⟩ := recoverCategoryHead_some hrec
                  refine ⟨h, [l], rfl, htop, hprev' h hmem, ?_⟩
                  intro x hx
                  have hxl : x = l := by simpa using hx
                  exact hxl ▸ hlin
    have ih := categoryGo_sound ls c rest (l :: prev) (categoryStep c prev st l)
      hrem' hprev' hstep.1 hstep.2
    simpa only [categoryGo] using ih

theorem searchCategoryLines_sound (ls : List String) (c : String) :
    ∀ b ∈ searchCategoryLines ls c, soundCategoryBlock ls b := by
  have hg := categoryGo_sound ls c ls [] ⟨[], false, []⟩ (fun x hx => hx)
    (by intro x hx; cases hx) (by intro b hb; cases hb)
    (by intro h; cases h)
  exact categoryFlush_sound hg.1 hg.2

theorem foldl_append_data (sep : String) :
    ∀ (body : List String) (a : String),
      ∃ r, (body.foldl (fun acc x => acc ++ sep ++ x) a).data = a.data ++ r
  | [], a => ⟨[], by simp⟩
  | x :: xs, a => by
    obtain ⟨r, hr⟩ := foldl_append_data sep xs (a ++ sep ++ x)
    refine ⟨sep.data ++ x.data ++ r, ?_⟩
    rw [List.foldl_cons, hr]
    rw [show (a ++ sep ++ x).data = a.data ++ sep.data ++ x.data from rfl]
    simp [List.append_assoc]

theorem joinSep_cons_data (sep h : String) (body : List String) :
    ∃ r, (joinSep sep (h :: body)).data = h.data ++ r := by
  unfold joinSep
  exact foldl_append_data sep body h

theorem hasTopIndent_two_spaces {h : String} (hh : hasTopIndent h = true) :
    ∃ t, h.data = ' ' :: ' ' :: t := by
  unfold hasTopIndent at hh
  simp only [Bool.and_eq_true] at hh
  have hp : ("  ".data : List Char) <+: h.data :=
    List.isPrefixOf_iff_prefix.mp hh.1.2
  obtain ⟨t, ht⟩ := hp
  exact ⟨t, by rw [← ht]; rfl⟩

theorem soundCategoryBlock_not_framed {ls : List String} {b : String}
    (hb : soundCategoryBlock ls b) : jsStartsWith b "## " = false := by
  obtain ⟨h, body, ht, _, _, hbe⟩ := hb
  obtain ⟨t, hdata⟩ := hasTopIndent_two_spaces ht
  obtain ⟨r, hr⟩ := joinSep_cons_data "\n" h body
  subst hbe
  unfold jsStartsWith
  rw [hr, hdata]
  rfl

theorem mkQueryBlock_framed (t : String) (content : List String) :
    jsStartsWith (mkQueryBlock t content) "## " = true := by
  unfold jsStartsWith mkQueryBlock
  rw [show ("## " ++ t ++ "\n" ++ joinSep "\n" content).data =
      '#' :: '#' :: ' ' :: (t.data ++ "\n".data ++ (joinSep "\n" content).data) from rfl]
  simp [List.isPrefixOf]

theorem categoryGo_cons (c x : String) (xs prev : List String) (st : CategoryState) :
    categoryGo c prev (x :: xs) st =
      categoryGo c (x :: prev) xs (categoryStep c prev st x) := rfl

theorem categoryFlush_mem {st : CategoryState} {b : String}
    (h : b ∈ st.matchingLines) : b ∈ categoryFlush st := by
  unfold categoryFlush
  split
  · exact List.mem_append_left _ h
  · exact h

theorem categoryStep_mono (c : String) (prev : List String) (st : CategoryState)
    (x : String) {b : String} (h : b ∈ st.matchingLines) :
    b ∈ (categoryStep c prev st x).matchingLines := by
  cases hs : isSectionStart x with
  | true =>
    rw [categoryStep_header c prev st x hs]
    exact categoryFlush_mem h
  | false =>
    by_cases hbl : x = ""
    · subst hbl
      rw [categoryStep_blank]
      exact h
    · cases hm : st.inMatchingCategory with
      | true =>
        rw [categoryStep_absorb c prev st x hs hm hbl]
        exact h
      | false =>
        cases hsw : jsStartsWith x "    " with
        | false =>
          rw [categoryStep_idle c prev st x hs hm (Or.inl hsw)]
          exact h
        | true =>
          cases hq : matchesCI x c with
          | false =>
            rw [categoryStep_idle c prev st x hs hm (Or.inr hq)]
            exact h
          | true =>
            cases hrec : recoverCategoryHead (x :: prev) with
            | none =>
              rw [categoryStep_trigger_lost c prev st x hs hm hbl hsw hq hrec]
              exact h
            | some hd =>
              rw [categoryStep_trigger_found c prev st x hd hs hm hbl hsw hq hrec]
              exact h

theorem categoryGo_mono (c : String) :
    ∀ (rem prev : List String) (st : CategoryState) {b : String},
      b ∈ st.matchingLines → b ∈ categoryFlush (categoryGo c prev rem st)
  | [], _, _, _, h => categoryFlush_mem h
  | x :: rest, prev, st, b, h => by
    rw [categoryGo_cons]
    exact categoryGo_mono c rest (x :: prev) _ (categoryStep_mono c prev st x h)

theorem categoryGo_append (c : String) :
    ∀ (xs ys prev : List String) (st : CategoryState),
      categoryGo c prev (xs ++ ys) st =
        categoryGo c (xs.reverse ++ prev) ys (categoryGo c prev xs st)
  | [], ys, prev, st => by simp [categoryGo]
  | x :: xs, ys, prev, st => by
    simp only [List.cons_append, categoryGo_cons]
    rw [categoryGo_append c xs ys (x :: prev) (categoryStep c prev st x)]
    have he : xs.reverse ++ (x :: prev) = (x :: xs).reverse ++ prev := by simp
    rw [he]

theorem categoryGo_seg (c : String) :
    ∀ (seg prev : List String) (st : CategoryState),
      st.inMatchingCategory = true →
      (∀ m ∈ seg, isSectionStart m = false) →
      (categoryGo c prev seg st).inMatchingCategory = true ∧
      (categoryGo c prev seg st).categoryContent =
        st.categoryContent ++ seg.filter (fun l => l != "") ∧
      (categoryGo c prev seg st).matchingLines = st.matchingLines
  | [], _, st, hm, _ => ⟨hm, by simp [categoryGo], rfl⟩
  | m :: rest, prev, st, hm, hseg => by
    have hsm := hseg m (List.mem_cons_self m rest)
    rw [categoryGo_cons]
    by_cases hbl : m = ""
    · subst hbl
      rw [categoryStep_blank]
      have ih := categoryGo_seg c rest ("" :: prev) st hm
        (fun y hy => hseg y (List.mem_cons_of_mem _ hy))
      refine ⟨ih.1, ?_, ih.2.2⟩
      rw [ih.2.1,
        show (("" :: rest).filter (fun l => l != "")) =
          rest.filter (fun l => l != "") from by simp]
    · rw [categoryStep_absorb c prev st m hsm hm hbl]
      have ih := categoryGo_seg c rest (m :: prev)
        { st with categoryContent := st.categoryContent ++ [m] } hm
        (fun y hy => hseg y (List.mem_cons_of_mem _ hy))
      refine ⟨ih.1, ?_, ih.2.2⟩
      rw [ih.2.1,
        show ((m :: rest).filter (fun l => l != "")) =
          m :: rest.filter (fun l => l != "") from by simp [hbl]]
      show (st.categoryContent ++ [m]) ++ rest.filter (fun l => l != "") = _
      simp [List.append_assoc]

theorem categoryFlush_mem_block {st : CategoryState}
    (hm : st.inMatchingCategory = true) (hne : st.categoryContent ≠ []) :
    joinSep "\n" st.categoryContent ∈ categoryFlush st := by
  unfold categoryFlush
  have hcond : (st.inMatchingCategory && st.categoryContent != []) = true := by
    rw [hm]
    simp [hne]
  rw [if_pos hcond]
  exact List.mem_append_right _ (List.mem_singleton.mpr rfl)

/-- C6 counterexample: a category block does not reproduce the section's
full body verbatim — a blank line inside the matching section is dropped
from the emitted block. -/
theorem category_body_blank_dropped_cex :
    searchByCategory "  cat:\np\n\nq" "cat" = ["  cat:\np\nq"] ∧
    searchByCategory "  cat:\np\n\nq" "cat" ≠ ["  cat:\np\n\nq"] := by decide

/-- C6 (amended): every category block is the raw newline-join of a
top-indented document line followed by document lines — never framed
with `"## "`, in contrast to the `"## " + title + body` shape of every
free-text block; and a section opened by a matching top-level header
contributes the block consisting of the header line text itself (leading
indentation included) followed by exactly the section's non-blank lines
in order, nested sub-header lines and their bodies included, blank lines
dropped. -/
theorem category_blocks_raw (doc c q : String) :
    (∀ b ∈ searchByCategory doc c,
      ∃ h body, hasTopIndent h = true ∧ h ∈ splitLines doc ∧
        (∀ x ∈ body, x ∈ splitLines doc) ∧ b = joinSep "\n" (h :: body) ∧
        jsStartsWith b "## " = false) ∧
    (∀ pre h seg rest, splitLines doc = pre ++ h :: (seg ++ rest) →
      isSectionStart h = true → matchesCI h c = true →
      (∀ m ∈ seg, isSectionStart m = false) →
      (rest = [] ∨ ∃ h2 rest2, rest = h2 :: rest2 ∧ isSectionStart h2 = true) →
      joinSep "\n" (h :: seg.filter (fun l => l != "")) ∈ searchByCategory doc c) ∧
    (∀ b ∈ searchByQuery doc q,
      ∃ t content, b = mkQueryBlock t content ∧
        jsStartsWith b "## " = true) := by
  refine ⟨?_, ?_, ?_⟩
  · intro b hb
    have hs := searchCategoryLines_sound (splitLines doc) c b hb
    have hf := soundCategoryBlock_not_framed hs
    obtain ⟨h, body, h1, h2, h3, h4⟩ := hs
    exact ⟨h, body, h1, h2, h3, h4, hf⟩
  · intro pre h seg rest hsplit hh hq hseg hrest
    unfold searchByCategory searchCategoryLines
    rw [hsplit, categoryGo_append c pre (h :: (seg ++ rest)) [] _, categoryGo_cons,
      categoryStep_header c (pre.reverse ++ []) _ h hh,
      categoryGo_append c seg rest (h :: (pre.reverse ++ [])) _]
    have hsegr := categoryGo_seg c seg (h :: (pre.reverse ++ []))
      ⟨categoryFlush (categoryGo c [] pre ⟨[], false, []⟩), matchesCI h c, [h]⟩
      hq hseg
    have hblock : joinSep "\n" (h :: seg.filter (fun l => l != "")) ∈
        categoryFlush (categoryGo c (h :: (pre.reverse ++ [])) seg
          ⟨categoryFlush (categoryGo c [] pre ⟨[], false, []⟩),
            matchesCI h c, [h]⟩) := by
      have hb := categoryFlush_mem_block hsegr.1 (by rw [hsegr.2.1]; simp)
      rw [hsegr.2.1, List.singleton_append] at hb
      exact hb
    rcases hrest with hnil | ⟨h2, rest2, hre, hh2⟩
    · subst hnil
      exact hblock
    · subst hre
      rw [categoryGo_cons, categoryStep_header c _ _ h2 hh2]
      exact categoryGo_mono c rest2 _ _ hblock
  · intro b hb
    have hs := searchQueryLines_sound (splitLines doc) q b hb
    obtain ⟨_, _, _, t, content, h4, _⟩ := hs
    exact ⟨t, content, h4, h4 ▸ mkQueryBlock_framed t content⟩

/-- C6 witness: on a concrete two-line document the matching header's
section block — header line first, body following — is in the output. -/
theorem category_blocks_raw_witness :
    joinSep "\n" ("  a:" :: (["b"].filter (fun l => l != ""))) ∈
      searchByCategory "  a:\nb" "a" :=
  (category_blocks_raw "  a:\nb" "a" "a").2.1 [] "  a:" ["b"] [] rfl
    (by decide) (by decide) (by decide) (Or.inl rfl)

/-!
### C1 — soundness and completeness of the free-text search
-/

theorem queryGo_cons (q x : String) (xs prev : List String) (st : QueryState) :
    queryGo q prev (x :: xs) st =
      queryGo q (x :: prev) xs (queryStep q prev st x) := rfl

theorem queryGo_append (q : String) :
    ∀ (xs ys prev : List String) (st : QueryState),
      queryGo q prev (xs ++ ys) st =
        queryGo q (xs.reverse ++ prev) ys (queryGo q prev xs st)
  | [], ys, prev, st => by simp [queryGo]
  | x :: xs, ys, prev, st => by
    simp only [List.cons_append, queryGo_cons]
    rw [queryGo_append q xs ys (x :: prev) (queryStep q prev st x)]
    have he : xs.reverse ++ (x :: prev) = (x :: xs).reverse ++ prev := by simp
    rw [he]

theorem queryFlush_mem {st : QueryState} {b : String}
    (h : b ∈ st.matchingLines) : b ∈ queryFlush st := by
  unfold queryFlush
  split
  · exact List.mem_append_left _ h
  · exact h

theorem queryStep_mono (q : String) (prev : List String) (st : QueryState)
    (x : String) {b : String} (h : b ∈ st.matchingLines) :
    b ∈ (queryStep q prev st x).matchingLines := by
  cases hs : isSectionStart x with
  | true =>
    rw [queryStep_header q prev st x hs]
    exact queryFlush_mem h
  | false =>
    cases hss : isSubsectionStart x with
    | true =>
      rw [queryStep_subheader q prev st x hs hss]
      exact queryFlush_mem h
    | false =>
      by_cases hbl : x = ""
      · subst hbl
        rw [queryStep_blank]
        exact h
      · cases hm : st.inMatchingSection with
        | true =>
          rw [queryStep_absorb q prev st x hs hss hm hbl]
          exact h
        | false =>
          cases hq : matchesCI x q with
          | false =>
            rw [queryStep_nonmatch q prev st x hs hss hm hq]
            exact h
          | true =>
            rw [queryStep_trigger q prev st x hs hss hm hbl hq]
            exact h

theorem queryGo_mono (q : String) :
    ∀ (rem prev : List String) (st : QueryState) {b : String},
      b ∈ st.matchingLines → b ∈ queryFlush (queryGo q prev rem st)
  | [], _, _, _, h => queryFlush_mem h
  | x :: rest, prev, st, b, h => by
    rw [queryGo_cons]
    exact queryGo_mono q rest (x :: prev) _ (queryStep_mono q prev st x h)

theorem queryFlush_mem_block {st : QueryState}
    (hm : st.inMatchingSection = true) (hne : st.sectionContent ≠ []) :
    mkQueryBlock st.sectionTitle st.sectionContent ∈ queryFlush st := by
  unfold queryFlush
  have hcond : (st.inMatchingSection && st.sectionContent != []) = true := by
    rw [hm]
    simp [hne]
  rw [if_pos hcond]
  exact List.mem_append_right _ (List.mem_singleton.mpr rfl)

theorem queryGo_pending (q l : String) :
    ∀ (rem prev : List String) (st : QueryState),
      st.inMatchingSection = true → l ∈ st.sectionContent →
      ∃ content, mkQueryBlock st.sectionTitle content ∈
          queryFlush (queryGo q prev rem st) ∧ l ∈ content
  | [], prev, st, hm, hl => by
    refine ⟨st.sectionContent, ?_, hl⟩
    show mkQueryBlock st.sectionTitle st.sectionContent ∈ queryFlush st
    exact queryFlush_mem_block hm (List.ne_nil_of_mem hl)
  | x :: rest, prev, st, hm, hl => by
    rw [queryGo_cons]
    cases hs : isSectionStart x with
    | true =>
      rw [queryStep_header q prev st x hs]
      refine ⟨st.sectionContent, ?_, hl⟩
      apply queryGo_mono
      show mkQueryBlock st.sectionTitle st.sectionContent ∈ queryFlush st
      exact queryFlush_mem_block hm (List.ne_nil_of_mem hl)
    | false =>
      cases hss : isSubsectionStart x with
      | true =>
        rw [queryStep_subheader q prev st x hs hss]
        refine ⟨st.sectionContent, ?_, hl⟩
        apply queryGo_mono
        show mkQueryBlock st.sectionTitle st.sectionContent ∈ queryFlush st
        exact queryFlush_mem_block hm (List.ne_nil_of_mem hl)
      | false =>
        by_cases hbl : x = ""
        · subst hbl
          rw [queryStep_blank]
          exact queryGo_pending q l rest ("" :: prev) st hm hl
        · rw [queryStep_absorb q prev st x hs hss hm hbl]
          exact queryGo_pending q l rest (x :: prev)
            { st with sectionContent := st.sectionContent ++ [x] } hm
            (List.mem_append_left _ hl)

theorem queryGo_mid (q : String) :
    ∀ (mid prev : List String) (st : QueryState),
      st.inMatchingSection = true →
      (∀ m ∈ mid, isSectionStart m = false ∧ isSubsectionStart m = false) →
      (queryGo q prev mid st).inMatchingSection = true ∧
      (queryGo q prev mid st).sectionTitle = st.sectionTitle
  | [], _, _, hm, _ => ⟨hm, rfl⟩
  | m :: rest, prev, st, hm, hmid => by
    have hx := hmid m (List.mem_cons_self m rest)
    rw [queryGo_cons]
    by_cases hbl : m = ""
    · subst hbl
      rw [queryStep_blank]
      exact queryGo_mid q rest ("" :: prev) st hm
        (fun y hy => hmid y (List.mem_cons_of_mem _ hy))
    · rw [queryStep_absorb q prev st m hx.1 hx.2 hm hbl]
      exact queryGo_mid q rest (m :: prev)
        { st with sectionContent := st.sectionContent ++ [m] } hm
        (fun y hy => hmid y (List.mem_cons_of_mem _ hy))

/-- C1 (amended): soundness — every returned block is a `"## "`-framed
block whose title is the trimmed text of a document line containing the
term case-insensitively, or whose body contains such a line. Completeness
— every matching non-blank non-header line appears in the body of some
returned block, and a matching header followed (before the next header)
by at least one non-blank non-header line yields a block titled with its
trimmed text whose body contains that line. (A matching header whose
accumulated body stays empty yields no block.) -/
theorem query_sound_and_complete (doc q : String) :
    (∀ b ∈ searchByQuery doc q, soundQueryBlock (splitLines doc) q b) ∧
    (∀ l ∈ splitLines doc, l ≠ "" → isSectionStart l = false →
      isSubsectionStart l = false → matchesCI l q = true →
      ∃ b ∈ searchByQuery doc q, ∃ t content,
        b = mkQueryBlock t content ∧ l ∈ content) ∧
    (∀ pre h mid l post, splitLines doc = pre ++ h :: (mid ++ l :: post) →
      (isSectionStart h = true ∨ isSubsectionStart h = true) →
      matchesCI h q = true →
      (∀ m ∈ mid, isSectionStart m = false ∧ isSubsectionStart m = false) →
      l ≠ "" → isSectionStart l = false → isSubsectionStart l = false →
      ∃ b ∈ searchByQuery doc q, ∃ content,
        b = mkQueryBlock (trimJS h) content ∧ l ∈ content) := by
  refine ⟨searchQueryLines_sound (splitLines doc) q, ?_, ?_⟩
  · intro l hl hbl hs hss hq
    obtain ⟨pre, post, hsplit⟩ := List.append_of_mem hl
    unfold searchByQuery searchQueryLines
    rw [hsplit, queryGo_append q pre (l :: post) [] _, queryGo_cons]
    have h1 : (queryStep q (pre.reverse ++ [])
        (queryGo q [] pre ⟨[], false, "", []⟩) l).inMatchingSection = true := by
      cases hm : (queryGo q [] pre ⟨[], false, "", []⟩).inMatchingSection with
      | true =>
        rw [queryStep_absorb q (pre.reverse ++ []) _ l hs hss hm hbl]
        exact hm
      | false =>
        rw [queryStep_trigger q (pre.reverse ++ []) _ l hs hss hm hbl hq]
    have h2 : l ∈ (queryStep q (pre.reverse ++ [])
        (queryGo q [] pre ⟨[], false, "", []⟩) l).sectionContent := by
      cases hm : (queryGo q [] pre ⟨[], false, "", []⟩).inMatchingSection with
      | true =>
        rw [queryStep_absorb q (pre.reverse ++ []) _ l hs hss hm hbl]
        exact List.mem_append_right _ (List.mem_singleton.mpr rfl)
      | false =>
        rw [queryStep_trigger q (pre.reverse ++ []) _ l hs hss hm hbl hq]
        exact List.mem_singleton.mpr rfl
    obtain ⟨content, hmem, hlc⟩ := queryGo_pending q l post (l :: (pre.reverse ++ []))
      (queryStep q (pre.reverse ++ []) (queryGo q [] pre ⟨[], false, "", []⟩) l) h1 h2
    exact ⟨_, hmem, _, content, rfl, hlc⟩
  · intro pre h mid l post hsplit hhead hq hmid hbl hs hss
    unfold searchByQuery searchQueryLines
    rw [hsplit, queryGo_append q pre (h :: (mid ++ l :: post)) [] _, queryGo_cons]
    have hh : queryStep q (pre.reverse ++ []) (queryGo q [] pre ⟨[], false, "", []⟩) h =
        ⟨queryFlush (queryGo q [] pre ⟨[], false, "", []⟩), matchesCI h q, trimJS h, []⟩ := by
      cases hsec : isSectionStart h with
      | true => exact queryStep_header q _ _ h hsec
      | false =>
        rcases hhead with hx | hx
        · rw [hsec] at hx
          cases hx
        · exact queryStep_subheader q _ _ h hsec hx
    rw [hh, queryGo_append q mid (l :: post) _ _, queryGo_cons]
    have hmidr := queryGo_mid q mid (h :: (pre.reverse ++ []))
      ⟨queryFlush (queryGo q [] pre ⟨[], false, "", []⟩), matchesCI h q, trimJS h, []⟩
      hq hmid
    have h1 : (queryStep q (mid.reverse ++ (h :: (pre.reverse ++ [])))
        (queryGo q (h :: (pre.reverse ++ [])) mid
          ⟨queryFlush (queryGo q [] pre ⟨[], false, "", []⟩),
            matchesCI h q, trimJS h, []⟩) l).inMatchingSection = true := by
      rw [queryStep_absorb q _ _ l hs hss hmidr.1 hbl]
      exact hmidr.1
    have h2 : l ∈ (queryStep q (mid.reverse ++ (h :: (pre.reverse ++ [])))
        (queryGo q (h :: (pre.reverse ++ [])) mid
          ⟨queryFlush (queryGo q [] pre ⟨[], false, "", []⟩),
            matchesCI h q, trimJS h, []⟩) l).sectionContent := by
      rw [queryStep_absorb q _ _ l hs hss hmidr.1 hbl]
      exact List.mem_append_right _ (List.mem_singleton.mpr rfl)
    have ht : (queryStep q (mid.reverse ++ (h :: (pre.reverse ++ [])))
        (queryGo q (h :: (pre.reverse ++ [])) mid
          ⟨queryFlush (queryGo q [] pre ⟨[], false, "", []⟩),
            matchesCI h q, trimJS h, []⟩) l).sectionTitle = trimJS h := by
      rw [queryStep_absorb q _ _ l hs hss hmidr.1 hbl]
      exact hmidr.2
    obtain ⟨content, hmem, hlc⟩ := queryGo_pending q l post
      (l :: (mid.reverse ++ (h :: (pre.reverse ++ []))))
      (queryStep q (mid.reverse ++ (h :: (pre.reverse ++ [])))
        (queryGo q (h :: (pre.reverse ++ [])) mid
          ⟨queryFlush (queryGo q [] pre ⟨[], false, "", []⟩),
            matchesCI h q, trimJS h, []⟩) l) h1 h2
    rw [ht] at hmem
    exact ⟨_, hmem, content, rfl, hlc⟩

/-- C1 witness: the matching content line of a one-line document appears
in the body of a returned block. -/
theorem query_sound_and_complete_witness :
    ∃ b ∈ searchByQuery "x term" "term", ∃ t content,
      b = mkQueryBlock t content ∧ "x term" ∈ content :=
  (query_sound_and_complete "x term" "term").2.1 "x term" (by decide) (by decide)
    (by decide) (by decide) (by decide)

end RuleDoc
